import Mathlib

/-!
Shallow embedding of `src/bin/jcd.rs`, a classpath jar-conflict detector.

The program builds a two-level index
`BTreeMap<Rc<String>, HashMap<u64, Vec<Rc<String>>>>` mapping each class-file
name to a map from content identity (size, crc32, or the sentinel 0) to the
list of jar labels that contributed an entry with that name and identity, and
then reports the names the active `DistinctFrom` policy deems conflicting.

Modelling choices:
* machine integers (`u64`, widened `u32`) are `Nat`; the program only compares
  them for equality, so no overflow arithmetic arises;
* the `BTreeMap` is an association list kept sorted strictly by key, with
  insertion preserving the order (its iteration order is its list order);
* the inner `HashMap` is an association list with distinct keys recorded in
  insertion order; `get`, `len` and insertion are order-independent in the
  source, and the hash map's own iteration order is unspecified, which is
  modelled by `BucketEmission` (any permutation of the stored buckets);
* the archive-reading primitive is an abstract file system
  `String → FileResult`: opening a path yields an io error, a zip-parse
  error, or the entry list in archive-native order;
* a Rust panic (process abort with non-zero status, nothing further printed)
  is the `RunResult.panicked` constructor carrying the panic message.
-/

/-- The `DistinctFrom` policy enum of the source (`Size`, `Crc`, `None`). -/
inductive DistinctFrom
  | size
  | crc
  | none
deriving DecidableEq

/-- The sentinel content identity `DISTINCT_FROM_NONE: u64 = 0`. -/
def DISTINCT_FROM_NONE : Nat := 0

/-- One zip entry as the enumerator exposes it: name, uncompressed size and
crc32 checksum (metadata only, no payload). -/
structure ZipEntry where
  name : String
  size : Nat
  crc32 : Nat
deriving DecidableEq

/-- `get_distinct_from`: the content identity of an entry under the active
policy (`crc32 as u64`, `size`, or the sentinel). -/
def get_distinct_from (e : ZipEntry) (check : DistinctFrom) : Nat :=
  match check with
  | .crc => e.crc32
  | .size => e.size
  | .none => DISTINCT_FROM_NONE

/-- Model of Rust `str::ends_with`: a byte suffix is a char-sequence suffix on
valid UTF-8. -/
def strEndsWith (s suf : String) : Bool := suf.data.isSuffixOf s.data

/-- Model of Rust `str::starts_with`. -/
def strStartsWith (s p : String) : Bool := p.data.isPrefixOf s.data

/-- The entry filter `filter(name, excludes)` of the source: keep a name iff it
ends with ".class", does not start with "META-INF", and starts with no
configured exclusion prefix. The source's early-return loop over `excludes`
is the all-of-negations below. -/
def filter (name : String) (excludes : List String) : Bool :=
  if !(strEndsWith name ".class") then false
  else if strStartsWith name "META-INF" then false
  else excludes.all (fun e => !(strStartsWith name e))

/-- Lexicographic comparison of char sequences by code point. On valid UTF-8
this coincides with Rust's byte-lexicographic `Ord` on `String`, the order of
the `BTreeMap` keys. -/
def lexLt : List Char → List Char → Bool
  | _, [] => false
  | [], _ :: _ => true
  | a :: as, b :: bs =>
    if a.toNat < b.toNat then true
    else if b.toNat < a.toNat then false
    else lexLt as bs

/-- Rust's `String` ordering (`Ord`), as used by the `BTreeMap`. -/
def strLt (a b : String) : Bool := lexLt a.data b.data

/-- The inner map `HashMap<u64, Vec<Rc<String>>>`: an association list with
distinct keys, recorded in insertion order. -/
abbrev Buckets := List (Nat × List String)

/-- `HashMap::get` on the inner map (keys are distinct, so first match). -/
def findBucket : Buckets → Nat → Option (List String)
  | [], _ => Option.none
  | (k, v) :: rest, ident => if k = ident then some v else findBucket rest ident

/-- The source's inner-map update: `get_mut` + `push` of the jar label when the
identity is already present, `insert` of a fresh singleton vector otherwise. -/
def pushBucket : Buckets → Nat → String → Buckets
  | [], ident, jar => [(ident, [jar])]
  | (k, v) :: rest, ident, jar =>
    if k = ident then (k, v ++ [jar]) :: rest
    else (k, v) :: pushBucket rest ident jar

/-- The outer index `BTreeMap<Rc<String>, HashMap<...>>`, an association list
kept sorted strictly by name. -/
abbrev Index := List (String × Buckets)

/-- `BTreeMap::get` on the outer index (keys are distinct, so first match). -/
def findName : Index → String → Option Buckets
  | [], _ => Option.none
  | (n, bs) :: rest, name => if n = name then some bs else findName rest name

/-- One observation insertion of the source (`extract_class_filenames_from_jar`
body): locate or create the name's entry — keeping the b-tree's key order —
and push (identity, jar label) into its inner map. -/
def insertObservation : Index → String → Nat → String → Index
  | [], name, ident, jar => [(name, [(ident, [jar])])]
  | (n, bs) :: rest, name, ident, jar =>
    if name = n then (n, pushBucket bs ident jar) :: rest
    else if strLt name n then (name, [(ident, [jar])]) :: (n, bs) :: rest
    else (n, bs) :: insertObservation rest name ident jar

/-- Processing of a single zip entry: insert its observation when the filter
passes, otherwise leave the index unchanged. -/
def processEntry (check : DistinctFrom) (excludes : List String) (jar : String)
    (idx : Index) (e : ZipEntry) : Index :=
  if filter e.name excludes then
    insertObservation idx e.name (get_distinct_from e check) jar
  else idx

/-- Outcome of opening one path: an io error (`File::open` fails), a zip-parse
error (`ZipArchive::new` fails on the opened file), or the entry list in
archive order. -/
inductive FileResult
  | openErr (msg : String)
  | badZip (msg : String)
  | ok (entries : List ZipEntry)

/-- The abort message of the source's `File::open` failure branch. -/
def openPanicMsg (path msg : String) : String := "path: " ++ path ++ " err: " ++ msg

/-- The abort message produced by unwrapping the zip-parse error (the standard
`Result::unwrap` message around the error's debug form; it does not mention
the path). -/
def unwrapPanicMsg (msg : String) : String :=
  "called `Result::unwrap()` on an `Err` value: " ++ msg

/-- Model of `Path::file_name` as used by `get_jar_name`: the last nonempty
slash-separated segment. (The source aborts on paths without a file name,
such as ".."; that branch is approximated by returning the path itself and is
exercised by no claim.) -/
def splitCharAux (c : Char) : List Char → List Char → List String
  | [], acc => [String.mk acc.reverse]
  | d :: rest, acc =>
    if d = c then String.mk acc.reverse :: splitCharAux c rest []
    else splitCharAux c rest (d :: acc)

/-- Split a string at every occurrence of a character, as Rust `str::split`
does (an empty string yields one empty piece). -/
def splitChar (c : Char) (s : String) : List String := splitCharAux c s.data []

/-- `get_jar_name`: the short jar label derived from a path. -/
def get_jar_name (path : String) : String :=
  ((splitChar '/' path).filter (fun s => s != "")).getLastD path

/-- `extract_class_filenames_from_jar`: open one archive and fold its entries
into the index, or abort with the corresponding panic message. -/
def extract_class_filenames_from_jar (path : String) (fs : String → FileResult)
    (check : DistinctFrom) (excludes : List String) (idx : Index) :
    Except String Index :=
  match fs path with
  | .openErr e => .error (openPanicMsg path e)
  | .badZip e => .error (unwrapPanicMsg e)
  | .ok entries => .ok (entries.foldl (processEntry check excludes (get_jar_name path)) idx)

/-- The collection loop of `main`: process the archives strictly in input
order, aborting at the first failure. -/
def collectAll : List String → (String → FileResult) → DistinctFrom → List String →
    Index → Except String Index
  | [], _, _, _, idx => .ok idx
  | p :: rest, fs, check, excludes, idx =>
    match extract_class_filenames_from_jar p fs check excludes idx with
    | .error e => .error e
    | .ok idx' => collectAll rest fs check excludes idx'

/-- The reportability test of `main`'s filter closure: under `None`, the
sentinel bucket's list has length at least two (the source unwraps the
lookup; the `Option.none` branch below is unreachable for an index built
under that policy); under `Size`/`Crc`, the inner map has at least two
distinct identity buckets (`v.len() >= 2`). -/
def reportable (check : DistinctFrom) (bs : Buckets) : Bool :=
  match check with
  | .none =>
    match findBucket bs DISTINCT_FROM_NONE with
    | some v => decide (2 ≤ v.length)
    | Option.none => false
  | _ => decide (2 ≤ bs.length)

/-- The reported index: the completed index restricted to reportable names,
in the b-tree's (sorted) iteration order. -/
def reportOf (idx : Index) (check : DistinctFrom) : Index :=
  idx.filter (fun kv => reportable check kv.2)

/-- Observable outcome of a run: the early "no conflict possible" return, an
abort (Rust panic: non-zero exit status, nothing printed beyond the message),
or the completed report. -/
inductive RunResult
  | fewJars (msg : String)
  | panicked (msg : String)
  | report (entries : Index)
deriving DecidableEq

/-- The run from a list of paths onward: collect every archive, then report. -/
def runPaths (paths : List String) (fs : String → FileResult)
    (check : DistinctFrom) (excludes : List String) : RunResult :=
  match collectAll paths fs check excludes [] with
  | .error e => .panicked e
  | .ok idx => .report (reportOf idx check)

/-- `main`: split the semicolon-joined jar list; with fewer than two paths,
print the short-circuit message and return; otherwise collect and report. -/
def mainRun (jarList : String) (fs : String → FileResult)
    (check : DistinctFrom) (excludes : List String) : RunResult :=
  let paths := splitChar ';' jarList
  if paths.length < 2 then
    .fewJars ("Only have " ++ toString paths.length ++ " jar file. No conflict class detected.")
  else runPaths paths fs check excludes

/-- Total number of bucket entries (archive labels) across all identities of
one inner map. -/
def totalEntries (bs : Buckets) : Nat := (bs.map (fun p => p.2.length)).sum

/-- Total number of bucket entries recorded for a name in the index. -/
def totalEntriesOfName (idx : Index) (n : String) : Nat :=
  totalEntries ((findName idx n).getD [])

/-- Modelled from the spec's words, for comparison with the code's
reportability test: a name whose total count of bucket entries across all
content identities is at least two. -/
def specReportableByTotal (bs : Buckets) : Prop := 2 ≤ totalEntries bs

/-- The entry list an archive contributes (empty for a failing archive). -/
def entriesOfD : FileResult → List ZipEntry
  | .ok es => es
  | _ => []

/-- Number of post-filter occurrences of a name across the input archives,
counting multiplicity (duplicates inside one archive count separately). -/
def occCount (paths : List String) (fs : String → FileResult)
    (excludes : List String) (n : String) : Nat :=
  (paths.map (fun p =>
    ((entriesOfD (fs p)).filter (fun e => e.name == n && filter e.name excludes)).length)).sum

/-- Modelled from the spec's words: the input archives that contain at least
one post-filter entry with the given name. -/
def archivesContaining (paths : List String) (fs : String → FileResult)
    (excludes : List String) (n : String) : List String :=
  paths.filter (fun p =>
    (entriesOfD (fs p)).any (fun e => e.name == n && filter e.name excludes))

/-- The outer index is sorted strictly by name (the `BTreeMap` invariant). -/
def SortedIndex (idx : Index) : Prop :=
  (idx.map (fun p => p.1)).Pairwise (fun a b => strLt a b = true)

/-- Under policy `None` every inner map is the single sentinel bucket. -/
def NoneShape (idx : Index) : Prop :=
  ∀ p ∈ idx, ∃ v, p.2 = [(DISTINCT_FROM_NONE, v)]

/-- Model of iterating the inner `HashMap` (Debug-printing it): the buckets
come out in an unspecified order, i.e. any permutation of the stored list. -/
def BucketEmission (bs out : Buckets) : Prop := List.Perm out bs

/-- Boolean substring test on char sequences (whether a panic message names a
path). -/
def containsSub (hay needle : List Char) : Bool :=
  hay.tails.any (fun t => needle.isPrefixOf t)

/-- Scenario: every path opens as an archive holding one `Foo.class` of
size 10 (the spec's equal-size conflict scenario). -/
def fsSameSize : String → FileResult := fun _ => .ok [⟨"Foo.class", 10, 5⟩]

/-- Scenario: `A.jar` holds `Foo.class` of size 10, every other path holds
`Foo.class` of size 20. -/
def fsDiffSize : String → FileResult := fun p =>
  if p = "A.jar" then .ok [⟨"Foo.class", 10, 5⟩] else .ok [⟨"Foo.class", 20, 6⟩]

/-- Scenario: `A.jar` is a malformed archive holding `Foo.class` twice (same
size), every other path is an empty archive. -/
def fsMalformedA : String → FileResult := fun p =>
  if p = "A.jar" then .ok [⟨"Foo.class", 10, 5⟩, ⟨"Foo.class", 10, 5⟩] else .ok []

/-- Scenario: `A.jar` holds `Foo.class` and `Bar.class`, every other path
holds a `Bar.class` of a different size. -/
def fsTwoNames : String → FileResult := fun p =>
  if p = "A.jar" then .ok [⟨"Foo.class", 10, 1⟩, ⟨"Bar.class", 30, 2⟩]
  else .ok [⟨"Bar.class", 40, 3⟩]

/-- Scenario: `a.jar` fails to open, every other path is an empty archive. -/
def fsOpenFail : String → FileResult := fun p =>
  if p = "a.jar" then .openErr "No such file or directory (os error 2)" else .ok []

/-- Scenario: `c.jar` opens but is not a valid zip, every other path is an
empty archive. -/
def fsBadZip : String → FileResult := fun p =>
  if p = "c.jar" then .badZip "InvalidArchive(\"Invalid zip header\")" else .ok []

/-! ### Order facts about the key comparison -/

/-- Equal code points give equal characters. -/
theorem charToNat_inj {a b : Char} (h : a.toNat = b.toNat) : a = b :=
  Char.ext (UInt32.ext h)

/-- `lexLt` is irreflexive. -/
theorem lexLt_irrefl : ∀ l : List Char, lexLt l l = false
  | [] => rfl
  | a :: as => by simp [lexLt, Nat.lt_irrefl, lexLt_irrefl as]

/-- `lexLt` is transitive. -/
theorem lexLt_trans : ∀ l₁ l₂ l₃ : List Char,
    lexLt l₁ l₂ = true → lexLt l₂ l₃ = true → lexLt l₁ l₃ = true
  | _, l₂, [], _, h₂ => by cases l₂ <;> simp [lexLt] at h₂
  | l₁, [], _ :: _, h₁, _ => by cases l₁ <;> simp [lexLt] at h₁
  | [], _ :: _, _ :: _, _, _ => rfl
  | a :: as, b :: bs, c :: cs, h₁, h₂ => by
    by_cases hab : a.toNat < b.toNat
    · by_cases hbc : b.toNat < c.toNat
      · simp [lexLt, Nat.lt_trans hab hbc]
      · by_cases hcb : c.toNat < b.toNat
        · simp [lexLt, hbc, hcb] at h₂
        · have hbceq : b = c :=
            charToNat_inj (Nat.le_antisymm (Nat.le_of_not_lt hcb) (Nat.le_of_not_lt hbc))
          subst hbceq
          simp [lexLt, hab]
    · by_cases hba : b.toNat < a.toNat
      · simp [lexLt, hab, hba] at h₁
      · have habeq : a = b :=
          charToNat_inj (Nat.le_antisymm (Nat.le_of_not_lt hba) (Nat.le_of_not_lt hab))
        subst habeq
        simp only [lexLt, Nat.lt_irrefl, if_false] at h₁
        by_cases hac : a.toNat < c.toNat
        · simp [lexLt, hac]
        · by_cases hca : c.toNat < a.toNat
          · simp [lexLt, hac, hca] at h₂
          · have haceq : a = c :=
              charToNat_inj (Nat.le_antisymm (Nat.le_of_not_lt hca) (Nat.le_of_not_lt hac))
            subst haceq
            simp only [lexLt, Nat.lt_irrefl, if_false] at h₂ ⊢
            exact lexLt_trans as bs cs h₁ h₂

/-- Two lists neither of which is `lexLt`-below the other are equal. -/
theorem lexLt_connex : ∀ l₁ l₂ : List Char,
    lexLt l₁ l₂ = false → lexLt l₂ l₁ = false → l₁ = l₂
  | [], [], _, _ => rfl
  | [], _ :: _, h₁, _ => by simp [lexLt] at h₁
  | _ :: _, [], _, h₂ => by simp [lexLt] at h₂
  | a :: as, b :: bs, h₁, h₂ => by
    by_cases hab : a.toNat < b.toNat
    · simp [lexLt, hab] at h₁
    · by_cases hba : b.toNat < a.toNat
      · simp [lexLt, hba] at h₂
      · have habeq : a = b :=
          charToNat_inj (Nat.le_antisymm (Nat.le_of_not_lt hba) (Nat.le_of_not_lt hab))
        subst habeq
        simp only [lexLt, Nat.lt_irrefl, if_false] at h₁ h₂
        rw [lexLt_connex as bs h₁ h₂]

/-- `strLt` is irreflexive. -/
theorem strLt_irrefl (s : String) : strLt s s = false := lexLt_irrefl s.data

/-- `strLt` is transitive. -/
theorem strLt_trans {a b c : String} (h₁ : strLt a b = true) (h₂ : strLt b c = true) :
    strLt a c = true := lexLt_trans a.data b.data c.data h₁ h₂

/-- Two strings neither of which is below the other are equal. -/
theorem strLt_connex {a b : String} (h₁ : strLt a b = false) (h₂ : strLt b a = false) :
    a = b := by
  have h := lexLt_connex a.data b.data h₁ h₂
  cases a with
  | mk da => cases b with
    | mk db => exact congrArg String.mk h

/-- Strictly smaller strings are different. -/
theorem strLt_ne {a b : String} (h : strLt a b = true) : a ≠ b := by
  intro heq
  subst heq
  rw [strLt_irrefl a] at h
  simp at h

/-! ### The inner map: `pushBucket` -/

/-- Effect of one inner-map insertion on lookups: the target identity's list
gains `jar` at its end (a fresh singleton if the identity was absent), every
other identity is untouched. -/
theorem findBucket_pushBucket (bs : Buckets) (i : Nat) (j : String) (k : Nat) :
    findBucket (pushBucket bs i j) k =
      if k = i then some (((findBucket bs i).getD []) ++ [j]) else findBucket bs k := by
  induction bs with
  | nil =>
    by_cases hk : k = i
    · subst hk
      simp [pushBucket, findBucket]
    · simp [pushBucket, findBucket, hk, Ne.symm hk]
  | cons hd tl ih =>
    obtain ⟨k', v⟩ := hd
    by_cases hk' : k' = i
    · subst hk'
      by_cases hk : k = k'
      · subst hk
        simp [pushBucket, findBucket]
      · simp [pushBucket, findBucket, hk, Ne.symm hk]
    · by_cases hk : k' = k
      · subst hk
        simp [pushBucket, findBucket, hk']
      · simp [pushBucket, findBucket, hk', hk, ih]

/-- One inner-map insertion grows the total entry count by exactly one. -/
theorem totalEntries_pushBucket (bs : Buckets) (i : Nat) (j : String) :
    totalEntries (pushBucket bs i j) = totalEntries bs + 1 := by
  induction bs with
  | nil => simp [pushBucket, totalEntries]
  | cons hd tl ih =>
    obtain ⟨k, v⟩ := hd
    by_cases hk : k = i
    · subst hk
      have hpb : pushBucket ((k, v) :: tl) k j = (k, v ++ [j]) :: tl := by
        simp [pushBucket]
      rw [hpb]
      simp only [totalEntries, List.map_cons, List.sum_cons, List.length_append,
        List.length_cons, List.length_nil]
      omega
    · simp only [pushBucket, hk, if_false, totalEntries, List.map_cons, List.sum_cons] at ih ⊢
      omega

/-- Totality with distinctness: a string not below a different string is above it. -/
theorem strLt_total {a b : String} (hne : a ≠ b) (h : strLt a b = false) :
    strLt b a = true := by
  cases hba : strLt b a
  · exact absurd (strLt_connex h hba) hne
  · rfl

/-- A key below every key of an index is absent from it. -/
theorem findName_eq_none_of_forall_ne (idx : Index) (name : String)
    (h : ∀ p ∈ idx, p.1 ≠ name) : findName idx name = Option.none := by
  induction idx with
  | nil => rfl
  | cons hd tl ih =>
    obtain ⟨n, bs⟩ := hd
    have hn : n ≠ name := h (n, bs) (by simp)
    simp only [findName, hn, if_false]
    exact ih (fun p hp => h p (by simp [hp]))

/-! ### The outer index: `insertObservation` -/

/-- Effect of one observation insertion on outer lookups: the target name's
inner map receives the `pushBucket` update (starting from empty if the name
was absent), every other name is untouched. Requires the b-tree sortedness
invariant. -/
theorem findName_insertObservation (idx : Index) (name : String) (ident : Nat)
    (jar : String) (h : SortedIndex idx) (m : String) :
    findName (insertObservation idx name ident jar) m =
      if m = name then some (pushBucket ((findName idx name).getD []) ident jar)
      else findName idx m := by
  induction idx with
  | nil =>
    by_cases hm : m = name
    · subst hm
      simp [insertObservation, findName, pushBucket]
    · simp [insertObservation, findName, hm, Ne.symm hm]
  | cons hd tl ih =>
    obtain ⟨n, bs⟩ := hd
    simp only [SortedIndex, List.map_cons, List.pairwise_cons] at h
    obtain ⟨hn, htl⟩ := h
    have htl' : SortedIndex tl := htl
    by_cases h1 : name = n
    · subst h1
      by_cases hm : m = name
      · subst hm
        simp [insertObservation, findName]
      · simp [insertObservation, findName, hm, Ne.symm hm]
    · by_cases h2 : strLt name n = true
      · have habsent : findName tl name = Option.none := by
          apply findName_eq_none_of_forall_ne
          intro p hp
          have hk : strLt n p.1 = true := hn p.1 (List.mem_map_of_mem _ hp)
          exact (strLt_ne (strLt_trans h2 hk)).symm
        by_cases hm : m = name
        · subst hm
          simp [insertObservation, findName, h1, Ne.symm h1, h2, habsent, pushBucket]
        · simp [insertObservation, findName, h1, h2, hm, Ne.symm hm]
      · by_cases hm : m = n
        · subst hm
          simp [insertObservation, findName, h1, Ne.symm h1, h2]
        · simp [insertObservation, findName, h1, Ne.symm h1, h2, hm, Ne.symm hm,
            ih htl']

/-- Unfolding of insertion when the head name matches. -/
theorem insertObservation_cons_eq (n : String) (bs : Buckets) (tl : Index)
    (ident : Nat) (jar : String) :
    insertObservation ((n, bs) :: tl) n ident jar = (n, pushBucket bs ident jar) :: tl := by
  simp [insertObservation]

/-- Unfolding of insertion when the new name sorts before the head. -/
theorem insertObservation_cons_lt (n : String) (bs : Buckets) (tl : Index)
    (name : String) (ident : Nat) (jar : String) (h1 : name ≠ n)
    (h2 : strLt name n = true) :
    insertObservation ((n, bs) :: tl) name ident jar =
      (name, [(ident, [jar])]) :: (n, bs) :: tl := by
  simp [insertObservation, h1, h2]

/-- Unfolding of insertion when the new name sorts after the head. -/
theorem insertObservation_cons_gt (n : String) (bs : Buckets) (tl : Index)
    (name : String) (ident : Nat) (jar : String) (h1 : name ≠ n)
    (h2 : strLt name n = false) :
    insertObservation ((n, bs) :: tl) name ident jar =
      (n, bs) :: insertObservation tl name ident jar := by
  simp [insertObservation, h1, h2]

/-- Every element of the index after an insertion was already present or
carries the inserted name. -/
theorem mem_insertObservation (idx : Index) (name : String) (ident : Nat)
    (jar : String) (p : String × Buckets)
    (hp : p ∈ insertObservation idx name ident jar) : p ∈ idx ∨ p.1 = name := by
  induction idx with
  | nil =>
    simp [insertObservation] at hp
    subst hp
    exact Or.inr rfl
  | cons hd tl ih =>
    obtain ⟨n, bs⟩ := hd
    by_cases h1 : name = n
    · subst h1
      rw [insertObservation_cons_eq] at hp
      rcases List.mem_cons.mp hp with rfl | hp'
      · exact Or.inr rfl
      · exact Or.inl (List.mem_cons_of_mem _ hp')
    · by_cases h2 : strLt name n = true
      · rw [insertObservation_cons_lt n bs tl name ident jar h1 h2] at hp
        rcases List.mem_cons.mp hp with rfl | hp'
        · exact Or.inr rfl
        · exact Or.inl hp'
      · have h2' : strLt name n = false := by
          cases hcase : strLt name n
          · rfl
          · exact absurd hcase h2
        rw [insertObservation_cons_gt n bs tl name ident jar h1 h2'] at hp
        rcases List.mem_cons.mp hp with rfl | hp'
        · exact Or.inl (List.mem_cons_self _ _)
        · rcases ih hp' with h | h
          · exact Or.inl (List.mem_cons_of_mem _ h)
          · exact Or.inr h

/-- Insertion preserves the b-tree sortedness invariant. -/
theorem sortedIndex_insertObservation (idx : Index) (name : String) (ident : Nat)
    (jar : String) (h : SortedIndex idx) :
    SortedIndex (insertObservation idx name ident jar) := by
  induction idx with
  | nil => simp [insertObservation, SortedIndex]
  | cons hd tl ih =>
    obtain ⟨n, bs⟩ := hd
    simp only [SortedIndex, List.map_cons, List.pairwise_cons] at h
    obtain ⟨hn, htl⟩ := h
    by_cases h1 : name = n
    · subst h1
      rw [insertObservation_cons_eq]
      simp only [SortedIndex, List.map_cons, List.pairwise_cons]
      exact ⟨hn, htl⟩
    · by_cases h2 : strLt name n = true
      · rw [insertObservation_cons_lt n bs tl name ident jar h1 h2]
        simp only [SortedIndex, List.map_cons, List.pairwise_cons]
        refine ⟨?_, hn, htl⟩
        intro k hk
        rcases List.mem_cons.mp hk with rfl | hk'
        · exact h2
        · exact strLt_trans h2 (hn k hk')
      · have h2' : strLt name n = false := by
          cases hcase : strLt name n
          · rfl
          · exact absurd hcase h2
        have hlt : strLt n name = true := strLt_total h1 h2'
        rw [insertObservation_cons_gt n bs tl name ident jar h1 h2']
        simp only [SortedIndex, List.map_cons, List.pairwise_cons]
        refine ⟨?_, ih htl⟩
        intro k hk
        rcases List.mem_map.mp hk with ⟨p, hp, rfl⟩
        rcases mem_insertObservation tl name ident jar p hp with hmem | hpn
        · exact hn p.1 (List.mem_map_of_mem _ hmem)
        · rw [hpn]
          exact hlt

/-- One insertion grows the target name's total entry count by exactly one and
leaves every other name's count unchanged. -/
theorem totalEntriesOfName_insertObservation (idx : Index) (name : String)
    (ident : Nat) (jar : String) (h : SortedIndex idx) (m : String) :
    totalEntriesOfName (insertObservation idx name ident jar) m =
      totalEntriesOfName idx m + (if m = name then 1 else 0) := by
  unfold totalEntriesOfName
  rw [findName_insertObservation idx name ident jar h m]
  by_cases hm : m = name
  · subst hm
    simp [totalEntries_pushBucket]
  · simp [hm]

/-- Insertion with the sentinel identity preserves the single-sentinel-bucket
shape. -/
theorem noneShape_insertObservation (idx : Index) (name : String) (jar : String)
    (h : NoneShape idx) :
    NoneShape (insertObservation idx name DISTINCT_FROM_NONE jar) := by
  induction idx with
  | nil =>
    intro p hp
    simp [insertObservation] at hp
    subst hp
    exact ⟨[jar], rfl⟩
  | cons hd tl ih =>
    obtain ⟨n, bs⟩ := hd
    have hhd := h (n, bs) (by simp)
    have htl : NoneShape tl := fun p hp => h p (by simp [hp])
    intro p hp
    by_cases h1 : name = n
    · subst h1
      rw [insertObservation_cons_eq] at hp
      rcases List.mem_cons.mp hp with rfl | hp'
      · obtain ⟨v, hv⟩ := hhd
        simp only at hv
        subst hv
        exact ⟨v ++ [jar], by simp [pushBucket]⟩
      · exact htl p hp'
    · by_cases h2 : strLt name n = true
      · rw [insertObservation_cons_lt n bs tl name DISTINCT_FROM_NONE jar h1 h2] at hp
        rcases List.mem_cons.mp hp with rfl | hp'
        · exact ⟨[jar], rfl⟩
        · rcases List.mem_cons.mp hp' with rfl | hp''
          · exact hhd
          · exact htl p hp''
      · have h2' : strLt name n = false := by
          cases hcase : strLt name n
          · rfl
          · exact absurd hcase h2
        rw [insertObservation_cons_gt n bs tl name DISTINCT_FROM_NONE jar h1 h2'] at hp
        rcases List.mem_cons.mp hp with rfl | hp'
        · exact hhd
        · exact ih htl p hp'

/-! ### Folding an archive's entries into the index -/

/-- One entry preserves sortedness. -/
theorem sortedIndex_processEntry (check : DistinctFrom) (ex : List String)
    (jar : String) (idx : Index) (e : ZipEntry) (h : SortedIndex idx) :
    SortedIndex (processEntry check ex jar idx e) := by
  unfold processEntry
  by_cases hf : filter e.name ex = true
  · rw [if_pos hf]
    exact sortedIndex_insertObservation idx e.name (get_distinct_from e check) jar h
  · rw [if_neg hf]
    exact h

/-- An archive's whole entry list preserves sortedness. -/
theorem sortedIndex_foldl (check : DistinctFrom) (ex : List String) (jar : String) :
    ∀ (es : List ZipEntry) (idx : Index), SortedIndex idx →
      SortedIndex (es.foldl (processEntry check ex jar) idx)
  | [], _, h => h
  | e :: es, idx, h => by
    simp only [List.foldl_cons]
    exact sortedIndex_foldl check ex jar es _ (sortedIndex_processEntry check ex jar idx e h)

/-- One entry adds one to the count of its own (post-filter) name and nothing
to any other name. -/
theorem totalEntriesOfName_processEntry (check : DistinctFrom) (ex : List String)
    (jar : String) (idx : Index) (e : ZipEntry) (h : SortedIndex idx) (m : String) :
    totalEntriesOfName (processEntry check ex jar idx e) m =
      totalEntriesOfName idx m +
        (if e.name == m && filter e.name ex then 1 else 0) := by
  unfold processEntry
  by_cases hf : filter e.name ex = true
  · rw [if_pos hf, totalEntriesOfName_insertObservation idx e.name (get_distinct_from e check) jar h m]
    by_cases hm : m = e.name
    · subst hm
      simp [hf]
    · simp [hm, Ne.symm hm]
  · have hf' : filter e.name ex = false := by
      cases hcase : filter e.name ex
      · rfl
      · exact absurd hcase hf
    rw [if_neg hf]
    simp [hf']

/-- Folding an entry list adds exactly the number of its post-filter
occurrences of a name to that name's count. -/
theorem totalEntriesOfName_foldl (check : DistinctFrom) (ex : List String) (jar : String) :
    ∀ (es : List ZipEntry) (idx : Index), SortedIndex idx → ∀ m : String,
      totalEntriesOfName (es.foldl (processEntry check ex jar) idx) m =
        totalEntriesOfName idx m +
          (es.filter (fun e => e.name == m && filter e.name ex)).length
  | [], _, _, _ => by simp
  | e :: es, idx, h, m => by
    simp only [List.foldl_cons]
    rw [totalEntriesOfName_foldl check ex jar es _ (sortedIndex_processEntry check ex jar idx e h) m,
      totalEntriesOfName_processEntry check ex jar idx e h m]
    by_cases hp : (e.name == m && filter e.name ex) = true
    · simp [List.filter_cons, hp]
      omega
    · have hp' : (e.name == m && filter e.name ex) = false := by
        cases hcase : (e.name == m && filter e.name ex)
        · rfl
        · exact absurd hcase hp
      simp [List.filter_cons, hp']

/-- One entry preserves the sentinel-only shape under policy `None`. -/
theorem noneShape_processEntry (ex : List String) (jar : String) (idx : Index)
    (e : ZipEntry) (h : NoneShape idx) :
    NoneShape (processEntry DistinctFrom.none ex jar idx e) := by
  unfold processEntry
  by_cases hf : filter e.name ex = true
  · rw [if_pos hf]
    exact noneShape_insertObservation idx e.name jar h
  · rw [if_neg hf]
    exact h

/-- An archive's entry list preserves the sentinel-only shape under `None`. -/
theorem noneShape_foldl (ex : List String) (jar : String) :
    ∀ (es : List ZipEntry) (idx : Index), NoneShape idx →
      NoneShape (es.foldl (processEntry DistinctFrom.none ex jar) idx)
  | [], _, h => h
  | e :: es, idx, h => by
    simp only [List.foldl_cons]
    exact noneShape_foldl ex jar es _ (noneShape_processEntry ex jar idx e h)

/-! ### The collection loop -/

/-- A successful collection preserves sortedness. -/
theorem sortedIndex_collectAll :
    ∀ (paths : List String) (fs : String → FileResult) (check : DistinctFrom)
      (ex : List String) (idx idx' : Index),
      collectAll paths fs check ex idx = .ok idx' → SortedIndex idx → SortedIndex idx'
  | [], _, _, _, _, _, hrun, h => by
    simp only [collectAll] at hrun
    cases hrun
    exact h
  | p :: rest, fs, check, ex, idx, idx', hrun, h => by
    cases hfp : fs p with
    | openErr e =>
      simp [collectAll, extract_class_filenames_from_jar, hfp] at hrun
    | badZip e =>
      simp [collectAll, extract_class_filenames_from_jar, hfp] at hrun
    | ok es =>
      simp only [collectAll, extract_class_filenames_from_jar, hfp] at hrun
      exact sortedIndex_collectAll rest fs check ex _ idx' hrun
        (sortedIndex_foldl check ex (get_jar_name p) es idx h)

/-- A successful collection adds each name's post-filter occurrence count
across all archives to its total entry count. -/
theorem totalEntriesOfName_collectAll :
    ∀ (paths : List String) (fs : String → FileResult) (check : DistinctFrom)
      (ex : List String) (idx idx' : Index),
      collectAll paths fs check ex idx = .ok idx' → SortedIndex idx → ∀ m : String,
      totalEntriesOfName idx' m = totalEntriesOfName idx m + occCount paths fs ex m
  | [], _, _, _, _, _, hrun, _, m => by
    simp only [collectAll] at hrun
    cases hrun
    simp [occCount]
  | p :: rest, fs, check, ex, idx, idx', hrun, h, m => by
    cases hfp : fs p with
    | openErr e =>
      simp [collectAll, extract_class_filenames_from_jar, hfp] at hrun
    | badZip e =>
      simp [collectAll, extract_class_filenames_from_jar, hfp] at hrun
    | ok es =>
      simp only [collectAll, extract_class_filenames_from_jar, hfp] at hrun
      rw [totalEntriesOfName_collectAll rest fs check ex _ idx' hrun
        (sortedIndex_foldl check ex (get_jar_name p) es idx h) m,
        totalEntriesOfName_foldl check ex (get_jar_name p) es idx h m]
      simp only [occCount, List.map_cons, List.sum_cons, entriesOfD, hfp]
      omega

/-- A successful collection under `None` preserves the sentinel-only shape. -/
theorem noneShape_collectAll :
    ∀ (paths : List String) (fs : String → FileResult) (ex : List String)
      (idx idx' : Index),
      collectAll paths fs DistinctFrom.none ex idx = .ok idx' → NoneShape idx →
      NoneShape idx'
  | [], _, _, _, _, hrun, h => by
    simp only [collectAll] at hrun
    cases hrun
    exact h
  | p :: rest, fs, ex, idx, idx', hrun, h => by
    cases hfp : fs p with
    | openErr e =>
      simp [collectAll, extract_class_filenames_from_jar, hfp] at hrun
    | badZip e =>
      simp [collectAll, extract_class_filenames_from_jar, hfp] at hrun
    | ok es =>
      simp only [collectAll, extract_class_filenames_from_jar, hfp] at hrun
      exact noneShape_collectAll rest fs ex _ idx' hrun
        (noneShape_foldl ex (get_jar_name p) es idx h)

/-- A prefix of archives that all open fine contributes only a fold of the
index: collection of the whole list continues from some intermediate index. -/
theorem collectAll_append_of_ok :
    ∀ (pre : List String) (rest : List String) (fs : String → FileResult)
      (check : DistinctFrom) (ex : List String) (idx : Index),
      (∀ q ∈ pre, ∃ es, fs q = .ok es) →
      ∃ idx₁, collectAll (pre ++ rest) fs check ex idx = collectAll rest fs check ex idx₁
  | [], rest, fs, check, ex, idx, _ => ⟨idx, rfl⟩
  | q :: pre', rest, fs, check, ex, idx, hpre => by
    obtain ⟨es, hq⟩ := hpre q (List.mem_cons_self q pre')
    have hrec := collectAll_append_of_ok pre' rest fs check ex
      (es.foldl (processEntry check ex (get_jar_name q)) idx)
      (fun r hr => hpre r (List.mem_cons_of_mem q hr))
    simpa [collectAll, extract_class_filenames_from_jar, hq] using hrec

/-! ### Lookup, membership and reportability -/

/-- In a sorted index a lookup succeeds exactly on the stored pair. -/
theorem findName_eq_some_of_mem (idx : Index) (n : String) (bs : Buckets)
    (h : SortedIndex idx) (hp : (n, bs) ∈ idx) : findName idx n = some bs := by
  induction idx with
  | nil => cases hp
  | cons hd tl ih =>
    obtain ⟨k, v⟩ := hd
    simp only [SortedIndex, List.map_cons, List.pairwise_cons] at h
    obtain ⟨hk, htl⟩ := h
    rcases List.mem_cons.mp hp with heq | hp'
    · cases heq
      simp [findName]
    · have hkn : k ≠ n := by
        have : strLt k n = true := hk n (List.mem_map_of_mem _ hp')
        exact strLt_ne this
      simp only [findName, hkn, if_false]
      exact ih htl hp'

/-- A successful lookup returns a stored pair. -/
theorem mem_of_findName_eq_some :
    ∀ (idx : Index) (n : String) (bs : Buckets),
      findName idx n = some bs → (n, bs) ∈ idx
  | [], _, _, h => by simp [findName] at h
  | (k, v) :: tl, n, bs, h => by
    by_cases hk : k = n
    · subst hk
      simp [findName] at h
      subst h
      exact List.mem_cons_self _ _
    · simp only [findName, hk, if_false] at h
      exact List.mem_cons_of_mem _ (mem_of_findName_eq_some tl n bs h)

/-- Membership in the report unfolds to membership in the index plus the
reportability test. -/
theorem mem_reportOf_iff (idx : Index) (check : DistinctFrom) (n : String)
    (bs : Buckets) :
    (n, bs) ∈ reportOf idx check ↔ (n, bs) ∈ idx ∧ reportable check bs = true := by
  simp [reportOf, List.mem_filter]

/-- Under `Size` the code's test is: at least two distinct identity buckets. -/
theorem reportable_size_iff (bs : Buckets) :
    reportable DistinctFrom.size bs = true ↔ 2 ≤ bs.length := by
  simp [reportable]

/-- Under `Crc` the code's test is: at least two distinct identity buckets. -/
theorem reportable_crc_iff (bs : Buckets) :
    reportable DistinctFrom.crc bs = true ↔ 2 ≤ bs.length := by
  simp [reportable]

/-- Under `None` the code's test is: the sentinel bucket holds at least two
labels (an absent sentinel bucket — impossible for an index built under
`None` — reports nothing). -/
theorem reportable_none_iff (bs : Buckets) :
    reportable DistinctFrom.none bs = true ↔
      2 ≤ ((findBucket bs DISTINCT_FROM_NONE).getD []).length := by
  cases hfb : findBucket bs DISTINCT_FROM_NONE with
  | none => simp [reportable, hfb]
  | some v => simp [reportable, hfb]

/-- Under the sentinel-only shape the sentinel bucket carries the whole count. -/
theorem sentinel_length_eq_totalEntries (bs : Buckets)
    (h : ∃ v, bs = [(DISTINCT_FROM_NONE, v)]) :
    ((findBucket bs DISTINCT_FROM_NONE).getD []).length = totalEntries bs := by
  obtain ⟨v, rfl⟩ := h
  simp [findBucket, totalEntries]

/-! ### The filter depends only on the set of exclusion prefixes -/

/-- Two exclusion lists with the same members filter identically. -/
theorem filter_congr_excludes (name : String) (ex₁ ex₂ : List String)
    (h : ∀ x, x ∈ ex₁ ↔ x ∈ ex₂) : filter name ex₁ = filter name ex₂ := by
  have hall : ex₁.all (fun e => !(strStartsWith name e)) =
      ex₂.all (fun e => !(strStartsWith name e)) := by
    cases hc1 : ex₁.all (fun e => !(strStartsWith name e)) <;>
      cases hc2 : ex₂.all (fun e => !(strStartsWith name e))
    · rfl
    · exfalso
      rw [List.all_eq_true] at hc2
      have : ex₁.all (fun e => !(strStartsWith name e)) = true :=
        List.all_eq_true.mpr (fun x hx => hc2 x ((h x).mp hx))
      rw [hc1] at this
      cases this
    · exfalso
      rw [List.all_eq_true] at hc1
      have : ex₂.all (fun e => !(strStartsWith name e)) = true :=
        List.all_eq_true.mpr (fun x hx => hc1 x ((h x).mpr hx))
      rw [hc2] at this
      cases this
    · rfl
  simp only [filter, hall]

/-- Two exclusion lists with the same members process entries identically. -/
theorem processEntry_congr_excludes (check : DistinctFrom) (jar : String)
    (ex₁ ex₂ : List String) (h : ∀ x, x ∈ ex₁ ↔ x ∈ ex₂) :
    processEntry check ex₁ jar = processEntry check ex₂ jar := by
  funext idx e
  unfold processEntry
  rw [filter_congr_excludes e.name ex₁ ex₂ h]

/-- Two exclusion lists with the same members extract an archive identically. -/
theorem extract_congr_excludes (p : String) (fs : String → FileResult)
    (check : DistinctFrom) (ex₁ ex₂ : List String) (idx : Index)
    (h : ∀ x, x ∈ ex₁ ↔ x ∈ ex₂) :
    extract_class_filenames_from_jar p fs check ex₁ idx =
      extract_class_filenames_from_jar p fs check ex₂ idx := by
  unfold extract_class_filenames_from_jar
  cases fs p with
  | openErr e => rfl
  | badZip e => rfl
  | ok es => rw [processEntry_congr_excludes check (get_jar_name p) ex₁ ex₂ h]

/-- Two exclusion lists with the same members collect identically. -/
theorem collectAll_congr_excludes :
    ∀ (paths : List String) (fs : String → FileResult) (check : DistinctFrom)
      (ex₁ ex₂ : List String) (idx : Index),
      (∀ x, x ∈ ex₁ ↔ x ∈ ex₂) →
      collectAll paths fs check ex₁ idx = collectAll paths fs check ex₂ idx
  | [], _, _, _, _, _, _ => rfl
  | p :: rest, fs, check, ex₁, ex₂, idx, h => by
    simp only [collectAll, extract_congr_excludes p fs check ex₁ ex₂ idx h]
    cases extract_class_filenames_from_jar p fs check ex₂ idx with
    | error e => rfl
    | ok idx' => exact collectAll_congr_excludes rest fs check ex₁ ex₂ idx' h

/-! ### Substring facts for the panic messages -/

/-- String concatenation concatenates the underlying char data. -/
theorem strData_append (a b : String) : (a ++ b).data = a.data ++ b.data := by
  cases a
  cases b
  rfl

/-- The boolean substring test coincides with list-infix. -/
theorem containsSub_iff (hay needle : List Char) :
    containsSub hay needle = true ↔ needle <:+: hay := by
  unfold containsSub
  rw [List.any_eq_true]
  constructor
  · rintro ⟨t, ht, hpre⟩
    rw [List.mem_tails] at ht
    rw [List.isPrefixOf_iff_prefix] at hpre
    obtain ⟨r, rfl⟩ := hpre
    obtain ⟨u, rfl⟩ := ht
    exact ⟨u, r, by simp⟩
  · rintro ⟨s, t, rfl⟩
    refine ⟨needle ++ t, ?_, ?_⟩
    · rw [List.mem_tails]
      exact ⟨s, by simp⟩
    · rw [List.isPrefixOf_iff_prefix]
      exact ⟨t, rfl⟩

/-- The open-failure panic message contains the offending path. -/
theorem openPanicMsg_names_path (p e : String) :
    containsSub (openPanicMsg p e).data p.data = true := by
  rw [containsSub_iff]
  refine ⟨"path: ".data, (" err: " ++ e).data, ?_⟩
  simp [openPanicMsg, strData_append, List.append_assoc]

/-! ### Claim theorems -/

/-- C7: an entry name passes the Collector's filter iff all three checks hold —
it ends with the class suffix ".class", does not start with the reserved
metadata prefix "META-INF", and starts with no configured exclusion prefix —
and an entry failing any check leaves the index unchanged. -/
theorem filter_iff_three_checks (e : ZipEntry) (ex : List String)
    (check : DistinctFrom) (jar : String) (idx : Index) :
    (filter e.name ex = true ↔
      (strEndsWith e.name ".class" = true ∧ strStartsWith e.name "META-INF" = false ∧
        ∀ pfx ∈ ex, strStartsWith e.name pfx = false)) ∧
    (filter e.name ex = false → processEntry check ex jar idx e = idx) := by
  constructor
  · unfold filter
    cases hc1 : strEndsWith e.name ".class" <;>
      cases hc2 : strStartsWith e.name "META-INF" <;>
        simp [hc1, hc2, List.all_eq_true]
  · intro hf
    unfold processEntry
    simp [hf]

/-- C7 witness: a concrete excluded entry is skipped with no index effect. -/
theorem filter_iff_three_checks_witness :
    processEntry DistinctFrom.size ["com/"] "A.jar" [] ⟨"com/X.class", 3, 4⟩ = [] :=
  (filter_iff_three_checks ⟨"com/X.class", 3, 4⟩ ["com/"] DistinctFrom.size "A.jar" []).2 rfl

/-- C6: with fewer than two jar paths, `main` prints the "no conflict" message
and returns before the engine runs: the outcome is the short-circuit result and
is independent of the file system (no archive is consulted). -/
theorem fewJars_short_circuit (jarList : String) (fs fs' : String → FileResult)
    (check : DistinctFrom) (ex : List String)
    (h : (splitChar ';' jarList).length < 2) :
    mainRun jarList fs check ex =
      .fewJars ("Only have " ++ toString (splitChar ';' jarList).length ++
        " jar file. No conflict class detected.") ∧
    mainRun jarList fs check ex = mainRun jarList fs' check ex := by
  constructor <;> simp [mainRun, h]

/-- C6 witness: a single-jar run short-circuits no matter the file system. -/
theorem fewJars_short_circuit_witness :
    mainRun "a.jar" fsOpenFail DistinctFrom.size [] =
      .fewJars "Only have 1 jar file. No conflict class detected." ∧
    mainRun "a.jar" fsOpenFail DistinctFrom.size [] =
      mainRun "a.jar" fsSameSize DistinctFrom.size [] :=
  fewJars_short_circuit "a.jar" fsOpenFail fsSameSize DistinctFrom.size [] (by decide)

/-- C9: the index only grows — an insertion either creates the (name, identity)
bucket as a fresh singleton or appends exactly one label at the end of its
list, every other (name, identity) bucket is untouched, and the target name's
total entry count grows by exactly one (so repeated triples are not
deduplicated: each repeat lengthens the list). -/
theorem insertObservation_appends_only (idx : Index) (name : String) (ident : Nat)
    (jar : String) (h : SortedIndex idx) :
    (∀ (m : String) (k : Nat),
      (findName (insertObservation idx name ident jar) m).bind (fun bs => findBucket bs k) =
        if m = name ∧ k = ident then
          some ((((findName idx name).bind (fun bs => findBucket bs ident)).getD []) ++ [jar])
        else (findName idx m).bind (fun bs => findBucket bs k)) ∧
    totalEntriesOfName (insertObservation idx name ident jar) name =
      totalEntriesOfName idx name + 1 := by
  constructor
  · intro m k
    rw [findName_insertObservation idx name ident jar h m]
    by_cases hm : m = name
    · subst hm
      rw [if_pos rfl]
      show findBucket (pushBucket ((findName idx m).getD []) ident jar) k = _
      rw [findBucket_pushBucket]
      by_cases hk : k = ident
      · subst hk
        rw [if_pos rfl, if_pos ⟨rfl, rfl⟩]
        cases hfn : findName idx m <;> simp [findBucket, hfn]
      · rw [if_neg hk, if_neg (fun hand => hk hand.2)]
        cases hfn : findName idx m <;> simp [findBucket, hfn]
    · rw [if_neg hm, if_neg (fun hand => hm hand.1)]
  · rw [totalEntriesOfName_insertObservation idx name ident jar h name]
    simp

/-- C9 witness: a repeated (name, identity, archive-free) observation appends
one more label to the existing bucket. -/
theorem insertObservation_appends_only_witness :
    (findName (insertObservation [("Foo.class", [(10, ["A.jar"])])] "Foo.class" 10 "B.jar")
        "Foo.class").bind (fun bs => findBucket bs 10) = some ["A.jar", "B.jar"] := by
  rw [(insertObservation_appends_only [("Foo.class", [(10, ["A.jar"])])] "Foo.class" 10 "B.jar"
    (by simp [SortedIndex])).1 "Foo.class" 10]
  rfl

/-- C10: an index completed under policy `None` maps every stored name to a
sub-map with exactly one key, the sentinel identity 0, so the reporter's
unwrapped sentinel lookup always succeeds. -/
theorem none_policy_sentinel_only (paths : List String) (fs : String → FileResult)
    (ex : List String) (idx : Index)
    (hrun : collectAll paths fs DistinctFrom.none ex [] = .ok idx) :
    ∀ n bs, findName idx n = some bs →
      (∃ v, bs = [(DISTINCT_FROM_NONE, v)]) ∧
      (findBucket bs DISTINCT_FROM_NONE).isSome = true := by
  intro n bs hfind
  have hshape : NoneShape idx :=
    noneShape_collectAll paths fs ex [] idx hrun
      (fun p hp => absurd hp (List.not_mem_nil p))
  have hmem := mem_of_findName_eq_some idx n bs hfind
  obtain ⟨v, hv⟩ := hshape (n, bs) hmem
  simp only at hv
  refine ⟨⟨v, hv⟩, ?_⟩
  rw [hv]
  simp [findBucket]

/-- C10 witness: the malformed-archive run under `None` stores only the
sentinel bucket for `Foo.class`. -/
theorem none_policy_sentinel_only_witness :
    (∃ v, ([(DISTINCT_FROM_NONE, ["A.jar", "A.jar"])] : Buckets) =
      [(DISTINCT_FROM_NONE, v)]) ∧
    (findBucket [(DISTINCT_FROM_NONE, ["A.jar", "A.jar"])] DISTINCT_FROM_NONE).isSome = true :=
  none_policy_sentinel_only ["A.jar", "B.jar"] fsMalformedA []
    [("Foo.class", [(0, ["A.jar", "A.jar"])])] rfl "Foo.class"
    [(DISTINCT_FROM_NONE, ["A.jar", "A.jar"])] rfl

/-- C8: exclusion-prefix lists with the same members yield the identical final
index and the identical run outcome. -/
theorem excludes_set_invariance (paths : List String) (fs : String → FileResult)
    (check : DistinctFrom) (ex₁ ex₂ : List String) (idx : Index)
    (h : ∀ x, x ∈ ex₁ ↔ x ∈ ex₂) :
    collectAll paths fs check ex₁ idx = collectAll paths fs check ex₂ idx ∧
    runPaths paths fs check ex₁ = runPaths paths fs check ex₂ := by
  refine ⟨collectAll_congr_excludes paths fs check ex₁ ex₂ idx h, ?_⟩
  unfold runPaths
  rw [collectAll_congr_excludes paths fs check ex₁ ex₂ [] h]

/-- C8 witness: swapping two exclusion prefixes changes nothing. -/
theorem excludes_set_invariance_witness :
    collectAll ["A.jar", "B.jar"] fsSameSize DistinctFrom.size ["com/", "org/"] [] =
      collectAll ["A.jar", "B.jar"] fsSameSize DistinctFrom.size ["org/", "com/"] [] :=
  (excludes_set_invariance ["A.jar", "B.jar"] fsSameSize DistinctFrom.size
    ["com/", "org/"] ["org/", "com/"] [] (fun x => by simp [or_comm])).1

/-- C1 (amended): under `Size` or `Crc` a (name, sub-map) pair of the completed
index is reported iff it is the stored pair and its sub-map holds at least two
distinct content-identity buckets (`v.len() >= 2`); a name whose occurrences
all share one identity is not reported however many archives contributed it. -/
theorem sizeCrc_report_iff_two_buckets (paths : List String)
    (fs : String → FileResult) (check : DistinctFrom) (ex : List String)
    (idx : Index) (n : String) (bs : Buckets)
    (hcheck : check = DistinctFrom.size ∨ check = DistinctFrom.crc)
    (hrun : collectAll paths fs check ex [] = .ok idx) :
    (n, bs) ∈ reportOf idx check ↔ findName idx n = some bs ∧ 2 ≤ bs.length := by
  have hsorted : SortedIndex idx :=
    sortedIndex_collectAll paths fs check ex [] idx hrun (by simp [SortedIndex])
  rw [mem_reportOf_iff]
  constructor
  · rintro ⟨hmem, hrep⟩
    refine ⟨findName_eq_some_of_mem idx n bs hsorted hmem, ?_⟩
    rcases hcheck with rfl | rfl
    · exact (reportable_size_iff bs).mp hrep
    · exact (reportable_crc_iff bs).mp hrep
  · rintro ⟨hfind, hlen⟩
    refine ⟨mem_of_findName_eq_some idx n bs hfind, ?_⟩
    rcases hcheck with rfl | rfl
    · exact (reportable_size_iff bs).mpr hlen
    · exact (reportable_crc_iff bs).mpr hlen

/-- C1 witness: two archives with different-sized `Foo.class` produce a
two-bucket sub-map, which is reported under `Size`. -/
theorem sizeCrc_report_iff_two_buckets_witness :
    ("Foo.class", [(10, ["A.jar"]), (20, ["B.jar"])]) ∈
      reportOf [("Foo.class", [(10, ["A.jar"]), (20, ["B.jar"])])] DistinctFrom.size :=
  (sizeCrc_report_iff_two_buckets ["A.jar", "B.jar"] fsDiffSize DistinctFrom.size []
    [("Foo.class", [(10, ["A.jar"]), (20, ["B.jar"])])] "Foo.class"
    [(10, ["A.jar"]), (20, ["B.jar"])] (Or.inl rfl) rfl).mpr ⟨rfl, by decide⟩

/-- C1 counterexample: archives `A.jar` and `B.jar` each contain `Foo.class`
of size 10 under policy `Size`; the total count of bucket entries across all
identities is 2 (the spec's reportability condition holds) yet the report is
empty — the claimed iff and the spec's equal-size scenario fail on the code. -/
theorem sizeCrc_total_count_counterexample :
    collectAll ["A.jar", "B.jar"] fsSameSize DistinctFrom.size [] [] =
      .ok [("Foo.class", [(10, ["A.jar", "B.jar"])])] ∧
    specReportableByTotal [(10, ["A.jar", "B.jar"])] ∧
    runPaths ["A.jar", "B.jar"] fsSameSize DistinctFrom.size [] = .report [] :=
  ⟨rfl, by unfold specReportableByTotal; decide, rfl⟩

/-- C2 (amended): under `None` a stored pair is reported iff the sentinel
bucket's label list has length at least two; equivalently, the name is
reported iff it has at least two post-filter occurrences across the input
archives counting multiplicity (duplicates inside one archive count). -/
theorem none_report_iff_sentinel_two (paths : List String)
    (fs : String → FileResult) (ex : List String) (idx : Index) (n : String)
    (hrun : collectAll paths fs DistinctFrom.none ex [] = .ok idx) :
    (∀ bs, ((n, bs) ∈ reportOf idx DistinctFrom.none ↔
      findName idx n = some bs ∧
        2 ≤ ((findBucket bs DISTINCT_FROM_NONE).getD []).length)) ∧
    ((∃ bs, (n, bs) ∈ reportOf idx DistinctFrom.none) ↔
      2 ≤ occCount paths fs ex n) := by
  have hsorted : SortedIndex idx :=
    sortedIndex_collectAll paths fs DistinctFrom.none ex [] idx hrun (by simp [SortedIndex])
  have hshape : NoneShape idx :=
    noneShape_collectAll paths fs ex [] idx hrun
      (fun p hp => absurd hp (List.not_mem_nil p))
  have htotal : totalEntriesOfName idx n = occCount paths fs ex n := by
    have h := totalEntriesOfName_collectAll paths fs DistinctFrom.none ex [] idx hrun
      (by simp [SortedIndex]) n
    simpa [totalEntriesOfName, findName, totalEntries] using h
  have hfirst : ∀ bs, ((n, bs) ∈ reportOf idx DistinctFrom.none ↔
      findName idx n = some bs ∧
        2 ≤ ((findBucket bs DISTINCT_FROM_NONE).getD []).length) := by
    intro bs
    rw [mem_reportOf_iff, reportable_none_iff]
    constructor
    · rintro ⟨hmem, hrep⟩
      exact ⟨findName_eq_some_of_mem idx n bs hsorted hmem, hrep⟩
    · rintro ⟨hfind, hrep⟩
      exact ⟨mem_of_findName_eq_some idx n bs hfind, hrep⟩
  refine ⟨hfirst, ?_⟩
  constructor
  · rintro ⟨bs, hmem⟩
    obtain ⟨hfind, hrep⟩ := (hfirst bs).mp hmem
    have hsl := sentinel_length_eq_totalEntries bs
      (hshape (n, bs) (mem_of_findName_eq_some idx n bs hfind))
    have hbs : totalEntriesOfName idx n = totalEntries bs := by
      simp [totalEntriesOfName, hfind]
    omega
  · intro hocc
    cases hfn : findName idx n with
    | none =>
      exfalso
      rw [← htotal] at hocc
      simp [totalEntriesOfName, hfn, totalEntries] at hocc
    | some bs =>
      refine ⟨bs, (hfirst bs).mpr ⟨hfn, ?_⟩⟩
      have hsl := sentinel_length_eq_totalEntries bs
        (hshape (n, bs) (mem_of_findName_eq_some idx n bs hfn))
      have hbs : totalEntriesOfName idx n = totalEntries bs := by
        simp [totalEntriesOfName, hfn]
      omega

/-- C2 witness: the malformed-archive run under `None` reports `Foo.class`,
whose sentinel list has two labels and which has two post-filter occurrences. -/
theorem none_report_iff_sentinel_two_witness :
    ("Foo.class", [(0, ["A.jar", "A.jar"])]) ∈
      reportOf [("Foo.class", [(0, ["A.jar", "A.jar"])])] DistinctFrom.none ∧
    2 ≤ occCount ["A.jar", "B.jar"] fsMalformedA [] "Foo.class" := by
  have h := none_report_iff_sentinel_two ["A.jar", "B.jar"] fsMalformedA []
    [("Foo.class", [(0, ["A.jar", "A.jar"])])] "Foo.class" rfl
  have hmem := (h.1 [(0, ["A.jar", "A.jar"])]).mpr ⟨rfl, by decide⟩
  exact ⟨hmem, h.2.mp ⟨_, hmem⟩⟩

/-- C2 counterexample (to the "present in at least two input archives" gloss):
under `None` a malformed archive holding `Foo.class` twice makes the name
reported although exactly one input archive contains it. -/
theorem none_single_archive_duplicate_reported :
    runPaths ["A.jar", "B.jar"] fsMalformedA DistinctFrom.none [] =
      .report [("Foo.class", [(0, ["A.jar", "A.jar"])])] ∧
    (archivesContaining ["A.jar", "B.jar"] fsMalformedA [] "Foo.class").length = 1 :=
  ⟨rfl, rfl⟩

/-- C3 (amended): two same-name post-filter entries inside one archive are both
appended as independent observations (the name's total entry count reaches at
least two) and the name is reported under `IGNORE_CONTENT`; under
`Size`/`Crc` reporting instead requires at least two distinct identity
buckets. -/
theorem malformed_duplicate_observations (paths : List String)
    (fs : String → FileResult) (check : DistinctFrom) (ex : List String)
    (idx : Index) (p : String) (l1 l2 l3 : List ZipEntry) (e1 e2 : ZipEntry)
    (n : String) (hp : p ∈ paths) (hfs : fs p = .ok (l1 ++ e1 :: (l2 ++ e2 :: l3)))
    (hn1 : e1.name = n) (hn2 : e2.name = n)
    (hf1 : filter e1.name ex = true) (_hf2 : filter e2.name ex = true)
    (hrun : collectAll paths fs check ex [] = .ok idx) :
    2 ≤ totalEntriesOfName idx n ∧
    (check = DistinctFrom.none → ∃ bs, (n, bs) ∈ reportOf idx check) := by
  have htotal := totalEntriesOfName_collectAll paths fs check ex [] idx hrun
    (by simp [SortedIndex]) n
  have htotal' : totalEntriesOfName idx n = occCount paths fs ex n := by
    simpa [totalEntriesOfName, findName, totalEntries] using htotal
  have hterm : 2 ≤
      ((entriesOfD (fs p)).filter (fun e => e.name == n && filter e.name ex)).length := by
    subst hn1
    rw [hfs]
    simp [entriesOfD, List.filter_append, List.filter_cons, hn2, hf1]
    omega
  have hocc : 2 ≤ occCount paths fs ex n := by
    have hmem :
        ((entriesOfD (fs p)).filter (fun e => e.name == n && filter e.name ex)).length ∈
          paths.map (fun q =>
            ((entriesOfD (fs q)).filter (fun e => e.name == n && filter e.name ex)).length) :=
      List.mem_map_of_mem _ hp
    have hle := List.single_le_sum (l := paths.map (fun q =>
        ((entriesOfD (fs q)).filter (fun e => e.name == n && filter e.name ex)).length))
      (fun x _ => Nat.zero_le x) _ hmem
    unfold occCount
    omega
  have hge : 2 ≤ totalEntriesOfName idx n := by omega
  refine ⟨hge, ?_⟩
  rintro rfl
  have hshape : NoneShape idx :=
    noneShape_collectAll paths fs ex [] idx hrun
      (fun q hq => absurd hq (List.not_mem_nil q))
  cases hfn : findName idx n with
  | none =>
    exfalso
    rw [totalEntriesOfName, hfn] at hge
    simp [totalEntries] at hge
  | some bs =>
    refine ⟨bs, (mem_reportOf_iff idx DistinctFrom.none n bs).mpr
      ⟨mem_of_findName_eq_some idx n bs hfn, ?_⟩⟩
    rw [reportable_none_iff]
    have hsl := sentinel_length_eq_totalEntries bs
      (hshape (n, bs) (mem_of_findName_eq_some idx n bs hfn))
    have hbs : totalEntriesOfName idx n = totalEntries bs := by
      simp [totalEntriesOfName, hfn]
    omega

/-- C3 witness: the malformed archive's duplicate `Foo.class` yields a count of
two and a report under `None`. -/
theorem malformed_duplicate_observations_witness :
    2 ≤ totalEntriesOfName [("Foo.class", [(0, ["A.jar", "A.jar"])])] "Foo.class" ∧
    ∃ bs, ("Foo.class", bs) ∈
      reportOf [("Foo.class", [(0, ["A.jar", "A.jar"])])] DistinctFrom.none := by
  have h := malformed_duplicate_observations ["A.jar", "B.jar"] fsMalformedA
    DistinctFrom.none [] [("Foo.class", [(0, ["A.jar", "A.jar"])])] "A.jar"
    [] [] [] ⟨"Foo.class", 10, 5⟩ ⟨"Foo.class", 10, 5⟩ "Foo.class"
    (by simp) rfl rfl rfl rfl rfl rfl
  exact ⟨h.1, h.2 rfl⟩

/-- C3 counterexample: the same malformed archive run under policy `Size` —
both observations are appended (two labels in the single size bucket) yet the
name is not reported, contradicting "reported under the active policy". -/
theorem malformed_duplicate_not_reported_under_size :
    collectAll ["A.jar", "B.jar"] fsMalformedA DistinctFrom.size [] [] =
      .ok [("Foo.class", [(10, ["A.jar", "A.jar"])])] ∧
    runPaths ["A.jar", "B.jar"] fsMalformedA DistinctFrom.size [] = .report [] :=
  ⟨rfl, rfl⟩

/-- C4 (amended): the report lists names in strictly ascending lexical order
and each reported pair carries exactly the buckets stored in the index (whose
label lists are the insertion-order vectors); the emission order of the
identity buckets within a name is the inner hash map's unspecified iteration
order — some permutation of the stored buckets — not necessarily insertion
order. -/
theorem report_names_sorted_buckets_stored (paths : List String)
    (fs : String → FileResult) (check : DistinctFrom) (ex : List String)
    (idx : Index) (hrun : collectAll paths fs check ex [] = .ok idx) :
    ((reportOf idx check).map (fun p => p.1)).Pairwise (fun a b => strLt a b = true) ∧
    ∀ n bs, (n, bs) ∈ reportOf idx check → findName idx n = some bs := by
  have hsorted : SortedIndex idx :=
    sortedIndex_collectAll paths fs check ex [] idx hrun (by simp [SortedIndex])
  constructor
  · have hsub : List.Sublist (reportOf idx check) idx := List.filter_sublist idx
    exact List.Pairwise.sublist (hsub.map (fun p => p.1)) hsorted
  · intro n bs hmem
    exact findName_eq_some_of_mem idx n bs hsorted
      ((mem_reportOf_iff idx check n bs).mp hmem).1

/-- C4 witness: a two-name run reports names in ascending order with the
stored buckets. -/
theorem report_names_sorted_buckets_stored_witness :
    ((reportOf [("Bar.class", [(30, ["A.jar"]), (40, ["B.jar"])]),
        ("Foo.class", [(10, ["A.jar"])])] DistinctFrom.size).map
      (fun p => p.1)).Pairwise (fun a b => strLt a b = true) :=
  (report_names_sorted_buckets_stored ["A.jar", "B.jar"] fsTwoNames
    DistinctFrom.size []
    [("Bar.class", [(30, ["A.jar"]), (40, ["B.jar"])]), ("Foo.class", [(10, ["A.jar"])])]
    rfl).1

/-- C4 counterexample (to "buckets are emitted in insertion order"): in the
different-size run `Foo.class` stores two buckets, and emitting them reversed
is a valid hash-map iteration order that differs from insertion order — the
code constrains the emission to a permutation only. -/
theorem bucket_emission_not_insertion_order :
    runPaths ["A.jar", "B.jar"] fsDiffSize DistinctFrom.size [] =
      .report [("Foo.class", [(10, ["A.jar"]), (20, ["B.jar"])])] ∧
    BucketEmission [(10, ["A.jar"]), (20, ["B.jar"])] [(20, ["B.jar"]), (10, ["A.jar"])] ∧
    [(20, ["B.jar"]), (10, ["A.jar"])] ≠ [(10, ["A.jar"]), (20, ["B.jar"])] :=
  ⟨rfl, List.Perm.swap _ _ _, by decide⟩

/-- C5 (amended): after any prefix of archives that open fine, a failing
archive aborts the whole run with the corresponding panic message and no
report is produced; the open-failure message names the offending path, while
the zip-parse failure aborts with the unwrap message around the zip error,
which does not involve the path. -/
theorem archive_failure_aborts (pre post : List String) (p : String)
    (fs : String → FileResult) (check : DistinctFrom) (ex : List String)
    (e : String) (hpre : ∀ q ∈ pre, ∃ es, fs q = .ok es) :
    (fs p = .openErr e →
      runPaths (pre ++ p :: post) fs check ex = .panicked (openPanicMsg p e) ∧
      containsSub (openPanicMsg p e).data p.data = true ∧
      ∀ r, runPaths (pre ++ p :: post) fs check ex ≠ .report r) ∧
    (fs p = .badZip e →
      runPaths (pre ++ p :: post) fs check ex = .panicked (unwrapPanicMsg e) ∧
      ∀ r, runPaths (pre ++ p :: post) fs check ex ≠ .report r) := by
  obtain ⟨idx₁, heq⟩ := collectAll_append_of_ok pre (p :: post) fs check ex [] hpre
  constructor
  · intro hfp
    have herr : collectAll (p :: post) fs check ex idx₁ = .error (openPanicMsg p e) := by
      simp [collectAll, extract_class_filenames_from_jar, hfp]
    refine ⟨?_, openPanicMsg_names_path p e, ?_⟩
    · unfold runPaths
      rw [heq, herr]
    · intro r
      unfold runPaths
      rw [heq, herr]
      simp
  · intro hfp
    have herr : collectAll (p :: post) fs check ex idx₁ = .error (unwrapPanicMsg e) := by
      simp [collectAll, extract_class_filenames_from_jar, hfp]
    refine ⟨?_, ?_⟩
    · unfold runPaths
      rw [heq, herr]
    · intro r
      unfold runPaths
      rw [heq, herr]
      simp

/-- C5 witness: an unopenable first archive aborts the two-jar run with a
message naming the path and no report. -/
theorem archive_failure_aborts_witness :
    runPaths ["a.jar", "b.jar"] fsOpenFail DistinctFrom.size [] =
      .panicked "path: a.jar err: No such file or directory (os error 2)" ∧
    containsSub ("path: a.jar err: No such file or directory (os error 2)").data
      "a.jar".data = true := by
  have h := (archive_failure_aborts [] ["b.jar"] "a.jar" fsOpenFail DistinctFrom.size
    [] "No such file or directory (os error 2)"
    (fun q hq => absurd hq (List.not_mem_nil q))).1 rfl
  exact ⟨h.1, h.2.1⟩

/-- C5 counterexample (to "a descriptive message naming the offending path"):
a zip-parse failure aborts with the bare unwrap message, which does not
contain the offending path. -/
theorem badzip_panic_omits_path :
    runPaths ["c.jar", "d.jar"] fsBadZip DistinctFrom.size [] =
      .panicked (unwrapPanicMsg "InvalidArchive(\"Invalid zip header\")") ∧
    containsSub (unwrapPanicMsg "InvalidArchive(\"Invalid zip header\")").data
      "c.jar".data = false :=
  ⟨rfl, rfl⟩
